import Mathlib

/-!
Shallow embedding of the VTV channel playlist editor (playlist.py) and
verification of its specified properties.

The editor manipulates a channel document: a map from day keys to ordered
lists of program entries, where each entry has an asset id, an optional
duration in seconds, and an optional manually pinned start time "HH:MM".
The resolver (calc_program_times) turns one day into a fully timed
lineup, and print_day_programs derives an overrun warning from it.

Python integers are embedded as Int (Python `%` on a positive modulus is
Int.emod, `//` is only applied to non-negative values here).  Fallible
Python code (raising ValueError) is embedded with Option.  Strings are
Lean Strings; slicing t[:2] / t[3:] acts on the character list t.data.
-/

namespace VTV

/-! ### Python `int()` parsing model

validate_time and time_to_seconds call Python `int(...)` on two-character
substrings.  Python `int` strips surrounding whitespace, accepts one
optional sign, and then a non-empty run of decimal digits in which single
underscores may appear between digits.  (Non-ASCII digits and non-ASCII
whitespace, which Python also accepts, do not occur in this data and are
not modelled.)  A failed parse raises ValueError, embedded as `none`. -/

/-- Whitespace characters stripped by Python int(): space, tab, LF, VT, FF, CR. -/
def isPySpace (c : Char) : Bool :=
  c.toNat = 32 || c.toNat = 9 || c.toNat = 10 || c.toNat = 11 || c.toNat = 12 || c.toNat = 13

/-- ASCII decimal digit test. -/
def pyIsDigit (c : Char) : Bool :=
  48 ≤ c.toNat && c.toNat ≤ 57

/-- Numeric value of an ASCII digit character. -/
def digitVal (c : Char) : Nat :=
  c.toNat - 48

/-- Continue parsing a digit run after at least one digit was read.
A single underscore (code 95) is allowed only between two digits. -/
def pyDigitsTail : Nat → List Char → Option Nat
  | acc, [] => some acc
  | acc, [c] =>
    if pyIsDigit c then some (acc * 10 + digitVal c) else none
  | acc, c :: c2 :: rest =>
    if pyIsDigit c then pyDigitsTail (acc * 10 + digitVal c) (c2 :: rest)
    else if c.toNat = 95 && pyIsDigit c2 then pyDigitsTail (acc * 10 + digitVal c2) rest
    else none

/-- Parse a non-empty digit run (with embedded underscores) to its value. -/
def pyNatOfChars : List Char → Option Nat
  | [] => none
  | c :: rest => if pyIsDigit c then pyDigitsTail (digitVal c) rest else none

/-- Strip leading and trailing whitespace, as Python int() does. -/
def pyStrip (l : List Char) : List Char :=
  ((l.dropWhile isPySpace).reverse.dropWhile isPySpace).reverse

/-- Python int() on a character list: strip whitespace, optional sign
(code 43 is +, code 45 is -), then a digit run. -/
def pyIntChars (l : List Char) : Option Int :=
  match pyStrip l with
  | [] => none
  | c :: rest =>
    if c.toNat = 43 then (pyNatOfChars rest).map Int.ofNat
    else if c.toNat = 45 then (pyNatOfChars rest).map (fun n => -(n : Int))
    else (pyNatOfChars (c :: rest)).map Int.ofNat

/-! ### Time arithmetic (playlist.py lines 27-103) -/

/-- Broadcast day starts at 07:00 (module constant DEFAULT_START_HOUR). -/
def DEFAULT_START_HOUR : Int := 7

/-- Broadcast day cutoff at 03:00 next day (module constant DEFAULT_END_HOUR). -/
def DEFAULT_END_HOUR : Int := 3

/-- validate_time: length must be 5 with a colon at index 2, then both
two-character fields must parse as Python ints with hour in 0..23 and
minute in 0..59; a ValueError from int() yields False. -/
def validate_time (t : String) : Bool :=
  if t.length ≠ 5 || t.data[2]? ≠ some ':' then false
  else
    match pyIntChars (t.data.take 2), pyIntChars (t.data.drop 3) with
    | some h, some m => decide (0 ≤ h ∧ h ≤ 23) && decide (0 ≤ m ∧ m ≤ 59)
    | _, _ => false

/-- time_to_seconds: int(t[:2]) * 3600 + int(t[3:]) * 60; a ValueError
from either int() propagates as none. -/
def time_to_seconds (t : String) : Option Int :=
  match pyIntChars (t.data.take 2), pyIntChars (t.data.drop 3) with
  | some h, some m => some (h * 3600 + m * 60)
  | _, _ => none

/-- Two-character zero-padded decimal rendering of n < 100, the effect of
the Python format f"{n:02d}" for the hour and minute fields (both are
always below 100 here). -/
def two_digit_chars (n : Nat) : List Char :=
  [Char.ofNat (48 + n / 10), Char.ofNat (48 + n % 10)]

/-- seconds_to_time: normalize into one day with Python %, then render
hour and minute as a zero-padded "HH:MM" string. -/
def seconds_to_time (secs : Int) : String :=
  let n : Nat := (secs % (24 * 3600)).toNat
  String.mk (two_digit_chars (n / 3600) ++ ':' :: two_digit_chars (n % 3600 / 60))

/-! ### Program entries and the schedule resolver (lines 131-155) -/

/-- One program entry of a cycle day, as stored in the channel JSON:
required asset id, optional pinned start time, optional duration.
A missing key of the JSON object is None. -/
structure Prog where
  id : String
  start : Option String
  duration : Option Int
deriving DecidableEq

/-- The Python truthiness test `"start" in prog and prog["start"]`: the
key is present and the string is non-empty. -/
def progHasPin (p : Prog) : Bool :=
  match p.start with
  | some s => s ≠ ""
  | none => false

/-- Loop body of calc_program_times: i is the entry index, cur the
running cursor current_secs.  A pinned entry moves the cursor to its
parsed start; the first entry otherwise (re)starts at 07:00; any other
unpinned entry continues at the cursor.  An unparseable pinned start
raises in Python, embedded as none. -/
def calcGo : Nat → Int → List Prog → Option (List (String × String × Prog))
  | _, _, [] => some []
  | i, cur, p :: rest =>
    let curO : Option Int :=
      match p.start with
      | some s =>
        if s = "" then some (if i = 0 then DEFAULT_START_HOUR * 3600 else cur)
        else time_to_seconds s
      | none => some (if i = 0 then DEFAULT_START_HOUR * 3600 else cur)
    match curO with
    | none => none
    | some cur1 =>
      let start_time := seconds_to_time cur1
      let end_secs := cur1 + p.duration.getD 0
      let end_time := seconds_to_time end_secs
      match calcGo (i + 1) end_secs rest with
      | none => none
      | some tail => some ((start_time, end_time, p) :: tail)

/-- calc_program_times: resolve a day into (start_time, end_time, prog)
triples, starting the cursor at DEFAULT_START_HOUR * 3600. -/
def calc_program_times (programs : List Prog) : Option (List (String × String × Prog)) :=
  calcGo 0 (DEFAULT_START_HOUR * 3600) programs

/-- Total duration of a day, counting a missing duration as 0, as the
summation in print_day_programs does via prog.get("duration", 0). -/
def sum_durations (programs : List Prog) : Int :=
  programs.foldr (fun p acc => p.duration.getD 0 + acc) 0

/-- Overrun warning of print_day_programs (lines 175-191): parse the
first resolved start and last resolved end back from their strings,
push the first start past midnight if it precedes 07:00, push the end
past midnight if it precedes the (possibly pushed) first start, and
warn when the result exceeds 27:00.  An empty day prints no warning. -/
def overrun_flag (programs : List Prog) : Option Bool :=
  match calc_program_times programs with
  | none => none
  | some timed =>
    match timed.head?, timed.getLast? with
    | some first, some last =>
      match time_to_seconds last.2.1, time_to_seconds first.1 with
      | some lastEnd, some fs0 =>
        let end_limit : Int := (DEFAULT_END_HOUR + 24) * 3600
        let first_start := if fs0 < DEFAULT_START_HOUR * 3600 then fs0 + 24 * 3600 else fs0
        let relative_end := if lastEnd < first_start then lastEnd + 24 * 3600 else lastEnd
        some (decide (end_limit < relative_end))
      | _, _ => none
    | _, _ => some false

/-! ### Day editing operations (edit_day_programs, lines 196-288) -/

/-- A catalog movie produced by scan_movies: id, duration in seconds,
and an optional error message captured during the scan. -/
structure Movie where
  id : String
  duration : Int
  error : Option String
deriving DecidableEq

/-- Truthiness of m.get("error"): present and non-empty. -/
def movieErrTruthy (m : Movie) : Bool :=
  match m.error with
  | some s => s ≠ ""
  | none => false

/-- Outcome of an add attempt in the editor: either the movie was
appended, or the selection named no schedulable asset (index out of
range, scan error recorded, or non-positive duration). -/
inductive EditOutcome where
  | added
  | unknownAsset
deriving DecidableEq

/-- The add command of edit_day_programs (lines 262-286): select a movie
by catalog index, reject errored or zero-duration movies, snapshot id
and duration into a new entry, attach the optional start time only if it
validates (an invalid one is ignored with a message), and append. -/
def add_program (movies : List Movie) (programs : List Prog) (idx : Nat)
    (timeStr : Option String) : EditOutcome × List Prog :=
  match movies[idx]? with
  | none => (.unknownAsset, programs)
  | some m =>
    if movieErrTruthy m || m.duration ≤ 0 then (.unknownAsset, programs)
    else
      let base : Prog := { id := m.id, start := none, duration := some m.duration }
      let newProg : Prog :=
        match timeStr with
        | some ts => if validate_time ts then { base with start := some ts } else base
        | none => base
      (.added, programs ++ [newProg])

/-- The t command of edit_day_programs (lines 242-260): set the pinned
start of the entry at a position if the position is in range and the
time validates; otherwise the day is left unchanged. -/
def set_pin (programs : List Prog) (pos : Nat) (timeStr : String) : List Prog :=
  match programs[pos]? with
  | some p =>
    if validate_time timeStr then programs.set pos { p with start := some timeStr }
    else programs
  | none => programs

/-! ### The channel document day map (main, lines 317-474)

The JSON document maps keys "dia_N" to entry lists.  The embedding keeps
the structured view: an association list from the day number N to the
entry list, first binding wins (the Python dict has unique keys). -/

/-- The day-number part of the channel document. -/
def Days : Type := List (Nat × List Prog)

/-- Lookup of data.get(key) for a day key. -/
def getDay : Days → Nat → Option (List Prog)
  | [], _ => none
  | (k, v) :: rest, n => if k = n then some v else getDay rest n

/-- Assignment data[key] = ps for a day key: overwrite the binding if
present, otherwise add it. -/
def setDay : Days → Nat → List Prog → Days
  | [], n, ps => [(n, ps)]
  | (k, v) :: rest, n, ps =>
    if k = n then (n, ps) :: rest else (k, v) :: setDay rest n ps

/-- The editing pattern data[key] = edit(data[key]) of the d command:
replace the entries of an existing day by a function of them. -/
def modifyDay (days : Days) (n : Nat) (g : List Prog → List Prog) : Days :=
  match getDay days n with
  | some ps => setDay days n (g ps)
  | none => days

/-- Failure of the copy command. -/
inductive DayErr where
  | UnknownDay
deriving DecidableEq

/-- The cp command (lines 443-458): refuse when the source day is
missing, otherwise install a deep copy of the source entry list at the
destination key.  copy.deepcopy of a value is the value itself under
value semantics. -/
def copy_day (days : Days) (fromN toN : Nat) : Except DayErr Days :=
  match getDay days fromN with
  | none => .error .UnknownDay
  | some ps => .ok (setDay days toN ps)

/-- Insertion into a sorted list of day numbers. -/
def insertSorted (n : Nat) : List Nat → List Nat
  | [] => [n]
  | m :: rest => if n ≤ m then n :: m :: rest else m :: insertSorted n rest

/-- Ascending sort, the sorted(days) call of get_day_numbers. -/
def sortNats : List Nat → List Nat
  | [] => []
  | n :: rest => insertSorted n (sortNats rest)

/-- get_day_numbers (lines 118-128): the day numbers bound in the
document, sorted ascending. -/
def get_day_numbers (days : Days) : List Nat :=
  sortNats (days.map (fun kv => kv.1))

/-- Day number chosen by the n command (lines 403-412): 1 when no day
exists, otherwise max(existing) + 1.  Python max over a non-empty list
of naturals is the fold of Nat.max from 0. -/
def new_day_number (days : Days) : Nat :=
  match get_day_numbers days with
  | [] => 1
  | l => l.foldl Nat.max 0 + 1

/-- Effect of the n command on the day map: bind an empty day at the
fresh number. -/
def new_day (days : Days) : Days :=
  setDay days (new_day_number days) []

/-! ### Specification-side predicate for comparison

The specification (section 4.1) reads time strings as exactly the shape
HH:MM: five characters, two decimal digits, a colon, two decimal digits,
with hour at most 23 and minute at most 59.  This predicate follows the
words of the specification and exists only to be compared with the
validate_time of the source. -/

/-- Specification reading of a valid clock string: exactly HH:MM with
decimal digits and in-range hour and minute. -/
def specValidHHMM (t : String) : Bool :=
  match t.data with
  | [c0, c1, c2, c3, c4] =>
    pyIsDigit c0 && pyIsDigit c1 && c2 = ':' && pyIsDigit c3 && pyIsDigit c4 &&
      decide (digitVal c0 * 10 + digitVal c1 ≤ 23) &&
      decide (digitVal c3 * 10 + digitVal c4 ≤ 59)
  | _ => false

/-! ### Lemmas about the parsing model -/

theorem char_eq_of_toNat_eq (c d : Char) (h : c.toNat = d.toNat) : c = d := by
  apply Char.eq_of_val_eq
  apply UInt32.eq_of_toBitVec_eq
  exact BitVec.eq_of_toNat_eq h

theorem toNat_ofNat_digit (a : Nat) (h : a < 10) : (Char.ofNat (48 + a)).toNat = 48 + a := by
  interval_cases a <;> decide

theorem pyIsDigit_ofNat_digit (a : Nat) (h : a < 10) : pyIsDigit (Char.ofNat (48 + a)) = true := by
  simp only [pyIsDigit, Bool.and_eq_true, decide_eq_true_eq]
  rw [toNat_ofNat_digit a h]
  omega

theorem digitVal_ofNat_digit (a : Nat) (h : a < 10) : digitVal (Char.ofNat (48 + a)) = a := by
  simp only [digitVal]
  rw [toNat_ofNat_digit a h]
  omega

theorem digitVal_lt_ten (c : Char) (h : pyIsDigit c = true) : digitVal c < 10 := by
  simp only [pyIsDigit, Bool.and_eq_true, decide_eq_true_eq] at h
  simp only [digitVal]
  omega

theorem isPySpace_false_of_digit (c : Char) (h : pyIsDigit c = true) : isPySpace c = false := by
  simp only [pyIsDigit, Bool.and_eq_true, decide_eq_true_eq] at h
  simp only [isPySpace, Bool.or_eq_false_iff, decide_eq_false_iff_not]
  omega

theorem pyIntChars_two_digits (c0 c1 : Char) (h0 : pyIsDigit c0 = true)
    (h1 : pyIsDigit c1 = true) :
    pyIntChars [c0, c1] = some ((digitVal c0 * 10 + digitVal c1 : Nat) : Int) := by
  have hs0 := isPySpace_false_of_digit c0 h0
  have hs1 := isPySpace_false_of_digit c1 h1
  have hb0 : pyIsDigit c0 = true := h0
  simp only [pyIsDigit, Bool.and_eq_true, decide_eq_true_eq] at hb0
  have hstrip : pyStrip [c0, c1] = [c0, c1] := by
    simp [pyStrip, List.dropWhile, hs0, hs1]
  simp only [pyIntChars, hstrip]
  have hn43 : ¬ c0.toNat = 43 := by omega
  have hn45 : ¬ c0.toNat = 45 := by omega
  simp [hn43, hn45, pyNatOfChars, h0, pyDigitsTail, h1]

theorem pyIntChars_two_digit_chars (n : Nat) (h : n < 100) :
    pyIntChars (two_digit_chars n) = some (n : Int) := by
  have h10 : n / 10 < 10 := by omega
  have h1 : n % 10 < 10 := by omega
  rw [two_digit_chars,
    pyIntChars_two_digits _ _ (pyIsDigit_ofNat_digit _ h10) (pyIsDigit_ofNat_digit _ h1),
    digitVal_ofNat_digit _ h10, digitVal_ofNat_digit _ h1]
  congr 1
  omega

theorem mk_data_eq (s : String) : String.mk s.data = s := rfl

theorem time_to_seconds_eq_of (t : String) (a b : Int)
    (h1 : pyIntChars (t.data.take 2) = some a) (h2 : pyIntChars (t.data.drop 3) = some b) :
    time_to_seconds t = some (a * 3600 + b * 60) := by
  rw [time_to_seconds, h1, h2]

theorem seconds_to_time_parse (x : Int) :
    time_to_seconds (seconds_to_time x) =
      some (((x % 86400).toNat / 60 * 60 : Nat) : Int) := by
  have hnn : 0 ≤ x % 86400 := Int.emod_nonneg x (by norm_num)
  have hlt : x % 86400 < 86400 := Int.emod_lt_of_pos x (by norm_num)
  have hn : (x % 86400).toNat < 86400 := by omega
  set n : Nat := (x % 86400).toNat with hn_def
  have hh : n / 3600 < 100 := by omega
  have hm : n % 3600 / 60 < 100 := by omega
  have hst : seconds_to_time x
      = String.mk (two_digit_chars (n / 3600) ++ ':' :: two_digit_chars (n % 3600 / 60)) := by
    rw [seconds_to_time]
    norm_num
  have hdata : (String.mk (two_digit_chars (n / 3600) ++ ':' :: two_digit_chars (n % 3600 / 60))).data
      = two_digit_chars (n / 3600) ++ ':' :: two_digit_chars (n % 3600 / 60) := rfl
  have htake : (two_digit_chars (n / 3600) ++ ':' :: two_digit_chars (n % 3600 / 60)).take 2
      = two_digit_chars (n / 3600) := by
    simp [two_digit_chars]
  have hdrop : (two_digit_chars (n / 3600) ++ ':' :: two_digit_chars (n % 3600 / 60)).drop 3
      = two_digit_chars (n % 3600 / 60) := by
    simp [two_digit_chars]
  rw [hst, time_to_seconds_eq_of _ ((n / 3600 : Nat) : Int) ((n % 3600 / 60 : Nat) : Int)]
  · congr 1
    omega
  · rw [hdata, htake]
    exact pyIntChars_two_digit_chars _ hh
  · rw [hdata, hdrop]
    exact pyIntChars_two_digit_chars _ hm

theorem specValid_cases (t : String) (h : specValidHHMM t = true) :
    ∃ c0 c1 c3 c4, t.data = [c0, c1, ':', c3, c4]
      ∧ pyIsDigit c0 = true ∧ pyIsDigit c1 = true ∧ pyIsDigit c3 = true ∧ pyIsDigit c4 = true
      ∧ digitVal c0 * 10 + digitVal c1 ≤ 23 ∧ digitVal c3 * 10 + digitVal c4 ≤ 59 := by
  unfold specValidHHMM at h
  split at h
  · next c0 c1 c2 c3 c4 heq =>
    simp only [Bool.and_eq_true, decide_eq_true_eq] at h
    obtain ⟨⟨⟨⟨⟨⟨h0, h1⟩, h2⟩, h3⟩, h4⟩, h5⟩, h6⟩ := h
    exact ⟨c0, c1, c3, c4, by rw [heq, h2], h0, h1, h3, h4, h5, h6⟩
  · simp at h

theorem ofNat_digitVal (c : Char) (h : pyIsDigit c = true) : Char.ofNat (48 + digitVal c) = c := by
  have hlt := digitVal_lt_ten c h
  apply char_eq_of_toNat_eq
  rw [toNat_ofNat_digit _ hlt]
  simp only [pyIsDigit, Bool.and_eq_true, decide_eq_true_eq] at h
  simp only [digitVal]
  omega

theorem two_digit_chars_of_digits (c c2 : Char) (hc : pyIsDigit c = true)
    (hc2 : pyIsDigit c2 = true) :
    two_digit_chars (digitVal c * 10 + digitVal c2) = [c, c2] := by
  have h1 := digitVal_lt_ten c hc
  have h2 := digitVal_lt_ten c2 hc2
  rw [two_digit_chars]
  have e1 : (digitVal c * 10 + digitVal c2) / 10 = digitVal c := by omega
  have e2 : (digitVal c * 10 + digitVal c2) % 10 = digitVal c2 := by omega
  rw [e1, e2, ofNat_digitVal c hc, ofNat_digitVal c2 hc2]

theorem seconds_to_time_hm (hh mm : Nat) (h1 : hh < 24) (h2 : mm < 60) :
    seconds_to_time ((hh : Int) * 3600 + (mm : Int) * 60)
      = String.mk (two_digit_chars hh ++ ':' :: two_digit_chars mm) := by
  have hemod : ((hh : Int) * 3600 + (mm : Int) * 60) % (24 * 3600)
      = ((hh * 3600 + mm * 60 : Nat) : Int) := by
    push_cast
    omega
  have htn : (((hh * 3600 + mm * 60 : Nat) : Int)).toNat = hh * 3600 + mm * 60 := by omega
  have e1 : (hh * 3600 + mm * 60) / 3600 = hh := by omega
  have e2 : (hh * 3600 + mm * 60) % 3600 / 60 = mm := by omega
  rw [seconds_to_time]
  simp only [hemod, htn, e1, e2]

theorem specValid_roundtrip (t : String) (h : specValidHHMM t = true) :
    ∃ hh mm : Nat, hh ≤ 23 ∧ mm ≤ 59 ∧
      time_to_seconds t = some ((hh : Int) * 3600 + (mm : Int) * 60) ∧
      seconds_to_time ((hh : Int) * 3600 + (mm : Int) * 60) = t := by
  obtain ⟨c0, c1, c3, c4, hd, h0, h1, h3, h4, hb1, hb2⟩ := specValid_cases t h
  have d1 := digitVal_lt_ten c1 h1
  have d4 := digitVal_lt_ten c4 h4
  refine ⟨digitVal c0 * 10 + digitVal c1, digitVal c3 * 10 + digitVal c4, hb1, hb2, ?_, ?_⟩
  · apply time_to_seconds_eq_of
    · rw [hd]
      exact pyIntChars_two_digits c0 c1 h0 h1
    · rw [hd]
      exact pyIntChars_two_digits c3 c4 h3 h4
  · rw [seconds_to_time_hm _ _ (by omega) (by omega),
      two_digit_chars_of_digits c0 c1 h0 h1, two_digit_chars_of_digits c3 c4 h3 h4]
    show String.mk [c0, c1, ':', c3, c4] = t
    rw [← hd]

theorem specValid_length (t : String) (h : specValidHHMM t = true) : t.length = 5 := by
  obtain ⟨c0, c1, c3, c4, hd, -, -, -, -, -, -⟩ := specValid_cases t h
  have : t.data.length = 5 := by rw [hd]; rfl
  cases t
  simpa [String.length] using this

theorem specValid_ne_empty (t : String) (h : specValidHHMM t = true) : t ≠ "" := by
  intro he
  have := specValid_length t h
  rw [he] at this
  simp at this

theorem validate_time_of_specValid (t : String) (h : specValidHHMM t = true) :
    validate_time t = true := by
  obtain ⟨c0, c1, c3, c4, hd, h0, h1, h3, h4, hb1, hb2⟩ := specValid_cases t h
  have hlen := specValid_length t h
  have hcolon : t.data[2]? = some ':' := by rw [hd]; rfl
  have htake : t.data.take 2 = [c0, c1] := by rw [hd]; rfl
  have hdrop : t.data.drop 3 = [c3, c4] := by rw [hd]; rfl
  rw [validate_time]
  rw [if_neg (by simp [hlen, hcolon])]
  rw [htake, hdrop, pyIntChars_two_digits c0 c1 h0 h1, pyIntChars_two_digits c3 c4 h3 h4]
  simp only [Bool.and_eq_true, decide_eq_true_eq]
  push_cast
  omega

theorem validate_time_iff (t : String) :
    validate_time t = true ↔
      (t.length = 5 ∧ t.data[2]? = some ':' ∧
        ∃ h m : Int, pyIntChars (t.data.take 2) = some h ∧ pyIntChars (t.data.drop 3) = some m ∧
          0 ≤ h ∧ h ≤ 23 ∧ 0 ≤ m ∧ m ≤ 59) := by
  rw [validate_time]
  constructor
  · intro hv
    split at hv
    · exact absurd hv (by simp)
    · next hcond =>
      simp only [Bool.or_eq_true, decide_eq_true_eq, not_or] at hcond
      push_neg at hcond
      refine ⟨hcond.1, hcond.2, ?_⟩
      split at hv
      · next a b heqa heqb =>
        simp only [Bool.and_eq_true, decide_eq_true_eq] at hv
        exact ⟨a, b, heqa, heqb, hv.1.1, hv.1.2, hv.2.1, hv.2.2⟩
      · exact absurd hv (by simp)
  · rintro ⟨hlen, hcolon, a, b, ha, hb, h1, h2, h3, h4⟩
    rw [if_neg (by simp [hlen, hcolon])]
    rw [ha, hb]
    simp only [Bool.and_eq_true, decide_eq_true_eq]
    exact ⟨⟨h1, h2⟩, h3, h4⟩

/-! ### Lemmas about the resolver -/

/-- The cursor update of one loop iteration of calc_program_times. -/
def pinCursor (i : Nat) (cur : Int) (p : Prog) : Option Int :=
  match p.start with
  | some s =>
    if s = "" then some (if i = 0 then DEFAULT_START_HOUR * 3600 else cur)
    else time_to_seconds s
  | none => some (if i = 0 then DEFAULT_START_HOUR * 3600 else cur)

theorem calcGo_cons_eq (i : Nat) (cur : Int) (p : Prog) (rest : List Prog) :
    calcGo i cur (p :: rest) =
      match pinCursor i cur p with
      | none => none
      | some cur1 =>
        match calcGo (i + 1) (cur1 + p.duration.getD 0) rest with
        | none => none
        | some tail =>
          some ((seconds_to_time cur1,
                 seconds_to_time (cur1 + p.duration.getD 0), p) :: tail) := rfl

theorem calcGo_cons_inv (i : Nat) (cur : Int) (p : Prog) (rest : List Prog)
    (timed : List (String × String × Prog)) (h : calcGo i cur (p :: rest) = some timed) :
    ∃ cur1 tail, pinCursor i cur p = some cur1
      ∧ calcGo (i + 1) (cur1 + p.duration.getD 0) rest = some tail
      ∧ timed = (seconds_to_time cur1,
                 seconds_to_time (cur1 + p.duration.getD 0), p) :: tail := by
  rw [calcGo_cons_eq] at h
  split at h
  · exact absurd h (by simp)
  · next cur1 hc =>
    split at h
    · exact absurd h (by simp)
    · next tail hrec =>
      refine ⟨cur1, tail, hc, hrec, ?_⟩
      injection h with h
      exact h.symm

theorem pinCursor_unpinned (i : Nat) (cur : Int) (p : Prog) (hp : progHasPin p = false) :
    pinCursor i cur p = some (if i = 0 then DEFAULT_START_HOUR * 3600 else cur) := by
  rw [pinCursor]
  cases hs : p.start with
  | none => rfl
  | some s =>
    rw [progHasPin, hs] at hp
    have hse : s = "" := by simpa using hp
    simp [hse]

theorem calcGo_cons_some (i : Nat) (cur : Int) (p : Prog) (rest : List Prog) (cur1 : Int)
    (hc : pinCursor i cur p = some cur1) :
    calcGo i cur (p :: rest) =
      match calcGo (i + 1) (cur1 + p.duration.getD 0) rest with
      | none => none
      | some tail =>
        some ((seconds_to_time cur1,
               seconds_to_time (cur1 + p.duration.getD 0), p) :: tail) := by
  rw [calcGo_cons_eq, hc]

theorem calcGo_length (progs : List Prog) : ∀ i cur timed,
    calcGo i cur progs = some timed → timed.length = progs.length := by
  induction progs with
  | nil =>
    intro i cur timed h
    rw [show calcGo i cur [] = some [] from rfl] at h
    injection h with h
    rw [← h]
    rfl
  | cons p rest ih =>
    intro i cur timed h
    obtain ⟨cur1, tail, _, hrec, rfl⟩ := calcGo_cons_inv i cur p rest timed h
    simp [ih _ _ _ hrec]

/-- The timeline of a pin-free suffix: strict back-to-back chaining from
the given cursor. -/
def chain : Int → List Prog → List (String × String × Prog)
  | _, [] => []
  | cur, p :: rest =>
    (seconds_to_time cur, seconds_to_time (cur + p.duration.getD 0), p)
      :: chain (cur + p.duration.getD 0) rest

theorem sum_durations_cons (p : Prog) (l : List Prog) :
    sum_durations (p :: l) = p.duration.getD 0 + sum_durations l := rfl

theorem calcGo_no_pins (progs : List Prog) : ∀ i cur,
    (∀ p ∈ progs, progHasPin p = false) → i ≠ 0 →
    calcGo i cur progs = some (chain cur progs) := by
  induction progs with
  | nil => intro i cur _ _; rfl
  | cons p rest ih =>
    intro i cur h hi
    rw [calcGo_cons_some i cur p rest cur
      (by rw [pinCursor_unpinned i cur p (h p (by simp))]; rw [if_neg hi])]
    rw [ih (i + 1) (cur + p.duration.getD 0) (fun q hq => h q (by simp [hq])) (by omega)]
    rfl

theorem calc_no_pins (progs : List Prog) (h : ∀ p ∈ progs, progHasPin p = false) :
    calc_program_times progs = some (chain (DEFAULT_START_HOUR * 3600) progs) := by
  cases progs with
  | nil => rfl
  | cons p rest =>
    rw [calc_program_times,
      calcGo_cons_some 0 (DEFAULT_START_HOUR * 3600) p rest (DEFAULT_START_HOUR * 3600)
        (by rw [pinCursor_unpinned 0 _ p (h p (by simp))]; simp)]
    rw [calcGo_no_pins rest (0 + 1) (DEFAULT_START_HOUR * 3600 + p.duration.getD 0)
      (fun q hq => h q (by simp [hq])) (by omega)]
    rfl

theorem chain_adjacent (progs : List Prog) : ∀ cur k a b,
    (chain cur progs)[k]? = some a → (chain cur progs)[k+1]? = some b → a.2.1 = b.1 := by
  induction progs with
  | nil => intro cur k a b ha _; simp [chain] at ha
  | cons p rest ih =>
    intro cur k a b ha hb
    cases k with
    | zero =>
      cases rest with
      | nil => simp [chain] at hb
      | cons q rest2 =>
        rw [show chain cur (p :: q :: rest2)
            = (seconds_to_time cur, seconds_to_time (cur + p.duration.getD 0), p)
              :: (seconds_to_time (cur + p.duration.getD 0),
                  seconds_to_time (cur + p.duration.getD 0 + q.duration.getD 0), q)
              :: chain (cur + p.duration.getD 0 + q.duration.getD 0) rest2 from rfl] at ha hb
        simp only [List.getElem?_cons_zero, List.getElem?_cons_succ, Option.some_inj] at ha hb
        rw [← ha, ← hb]
    | succ k =>
      rw [show chain cur (p :: rest)
          = (seconds_to_time cur, seconds_to_time (cur + p.duration.getD 0), p)
            :: chain (cur + p.duration.getD 0) rest from rfl] at ha hb
      simp only [List.getElem?_cons_succ] at ha hb
      exact ih (cur + p.duration.getD 0) k a b ha hb

theorem getLast?_cons_of_ne_nil (x : String × String × Prog) (l : List (String × String × Prog))
    (h : l ≠ []) : (x :: l).getLast? = l.getLast? := by
  cases l with
  | nil => exact absurd rfl h
  | cons y ys => exact List.getLast?_cons_cons

theorem chain_last_end (progs : List Prog) : ∀ cur, progs ≠ [] →
    ((chain cur progs).getLast?).map (fun x => x.2.1)
      = some (seconds_to_time (cur + sum_durations progs)) := by
  induction progs with
  | nil => intro cur h; exact absurd rfl h
  | cons p rest ih =>
    intro cur _
    cases rest with
    | nil =>
      rw [show chain cur [p]
          = [(seconds_to_time cur, seconds_to_time (cur + p.duration.getD 0), p)] from rfl]
      rw [show sum_durations [p] = p.duration.getD 0 + 0 from rfl]
      simp
    | cons q rest2 =>
      rw [show chain cur (p :: q :: rest2)
          = (seconds_to_time cur, seconds_to_time (cur + p.duration.getD 0), p)
            :: chain (cur + p.duration.getD 0) (q :: rest2) from rfl]
      rw [getLast?_cons_of_ne_nil _ _ (by rw [show chain (cur + p.duration.getD 0) (q :: rest2)
          = (seconds_to_time (cur + p.duration.getD 0),
             seconds_to_time (cur + p.duration.getD 0 + q.duration.getD 0), q)
            :: chain (cur + p.duration.getD 0 + q.duration.getD 0) rest2 from rfl]; simp)]
      rw [ih (cur + p.duration.getD 0) (by simp)]
      congr 2
      simp only [sum_durations_cons]
      ring

theorem chain_head (cur : Int) (p : Prog) (rest : List Prog) :
    (chain cur (p :: rest)).head?.map (fun x => x.1) = some (seconds_to_time cur) := rfl

theorem calcGo_pin_start (progs : List Prog) :
    ∀ (i : Nat) (cur : Int) (timed : List (String × String × Prog)) (k : Nat) (p : Prog)
      (T : String),
    calcGo i cur progs = some timed → progs[k]? = some p → p.start = some T →
    specValidHHMM T = true → timed[k]?.map (fun x => x.1) = some T := by
  induction progs with
  | nil => intro i cur timed k p T _ hk _ _; simp at hk
  | cons q rest ih =>
    intro i cur timed k p T h hk hT hv
    obtain ⟨cur1, tail, hc, hrec, rfl⟩ := calcGo_cons_inv i cur q rest timed h
    cases k with
    | zero =>
      simp only [List.getElem?_cons_zero, Option.some_inj] at hk
      subst hk
      obtain ⟨hh, mm, _, _, hparse, hrender⟩ := specValid_roundtrip T hv
      have hTne : T ≠ "" := specValid_ne_empty T hv
      simp only [pinCursor, hT] at hc
      rw [if_neg hTne, hparse] at hc
      injection hc with hc
      simp only [List.getElem?_cons_zero, Option.map_some]
      rw [← hc, hrender]
      rfl
    | succ k =>
      simp only [List.getElem?_cons_succ] at hk ⊢
      exact ih (i + 1) (cur1 + q.duration.getD 0) tail k p T hrec hk hT hv

theorem calc_first_start_unpinned (p : Prog) (rest : List Prog)
    (timed : List (String × String × Prog)) (hp : progHasPin p = false)
    (h : calc_program_times (p :: rest) = some timed) :
    timed[0]?.map (fun x => x.1) = some "07:00" := by
  obtain ⟨cur1, tail, hc, _, rfl⟩ := calcGo_cons_inv 0 _ p rest timed h
  rw [pinCursor_unpinned 0 _ p hp] at hc
  injection hc with hc
  simp only [List.getElem?_cons_zero, Option.map_some, Option.some_inj]
  rw [← hc]
  rfl

theorem calcGo_adjacent_unpinned (progs : List Prog) :
    ∀ (i : Nat) (cur : Int) (timed : List (String × String × Prog)) (j : Nat)
      (a b : String × String × Prog) (q : Prog),
    calcGo i cur progs = some timed → timed[j]? = some a → timed[j+1]? = some b →
    progs[j+1]? = some q → progHasPin q = false → b.1 = a.2.1 := by
  induction progs with
  | nil =>
    intro i cur timed j a b q h hj _ _ _
    rw [show calcGo i cur [] = some [] from rfl] at h
    injection h with h
    rw [← h] at hj
    simp at hj
  | cons p rest ih =>
    intro i cur timed j a b q h hj hj1 hq hnp
    obtain ⟨cur1, tail, _, hrec, rfl⟩ := calcGo_cons_inv i cur p rest timed h
    cases j with
    | zero =>
      simp only [List.getElem?_cons_zero, List.getElem?_cons_succ, Option.some_inj] at hj hj1 hq
      cases rest with
      | nil => simp at hq
      | cons q2 rest2 =>
        simp only [List.getElem?_cons_zero, Option.some_inj] at hq
        obtain ⟨cur2, tail2, hc2, _, rfl⟩ :=
          calcGo_cons_inv (i + 1) (cur1 + p.duration.getD 0) q2 rest2 tail hrec
        rw [← hq] at hnp
        rw [pinCursor_unpinned (i + 1) _ q2 hnp, if_neg (by omega)] at hc2
        injection hc2 with hc2
        simp only [List.getElem?_cons_zero, Option.some_inj] at hj1
        rw [← hj, ← hj1, ← hc2]
    | succ j =>
      simp only [List.getElem?_cons_succ] at hj hj1 hq
      exact ih (i + 1) (cur1 + p.duration.getD 0) tail j a b q hrec hj hj1 hq hnp

theorem calcGo_total (progs : List Prog) : ∀ (i : Nat) (cur : Int),
    (∀ p ∈ progs, ∀ s, p.start = some s → s ≠ "" → (time_to_seconds s).isSome = true) →
    ∃ timed, calcGo i cur progs = some timed := by
  induction progs with
  | nil => intro i cur _; exact ⟨[], rfl⟩
  | cons p rest ih =>
    intro i cur h
    have hcur : ∃ cur1, pinCursor i cur p = some cur1 := by
      cases hs : p.start with
      | none =>
        exact ⟨if i = 0 then DEFAULT_START_HOUR * 3600 else cur, by simp [pinCursor, hs]⟩
      | some s =>
        by_cases hse : s = ""
        · exact ⟨if i = 0 then DEFAULT_START_HOUR * 3600 else cur,
            by simp only [pinCursor, hs]; rw [if_pos hse]⟩
        · have := h p (by simp) s hs hse
          cases hts : time_to_seconds s with
          | none => rw [hts] at this; simp at this
          | some v => exact ⟨v, by simp only [pinCursor, hs]; rw [if_neg hse, hts]⟩
    obtain ⟨cur1, hc⟩ := hcur
    obtain ⟨tail, htail⟩ := ih (i + 1) (cur1 + p.duration.getD 0)
      (fun q hq => h q (by simp [hq]))
    refine ⟨(seconds_to_time cur1,
             seconds_to_time (cur1 + p.duration.getD 0), p) :: tail, ?_⟩
    rw [calcGo_cons_some i cur p rest cur1 hc, htail]

theorem calcGo_nodur (progs : List Prog) :
    ∀ (i : Nat) (cur : Int) (timed : List (String × String × Prog)) (k : Nat) (p : Prog)
      (a : String × String × Prog),
    calcGo i cur progs = some timed → progs[k]? = some p → p.duration = none →
    timed[k]? = some a → a.2.1 = a.1 := by
  induction progs with
  | nil => intro i cur timed k p a _ hk _ _; simp at hk
  | cons q rest ih =>
    intro i cur timed k p a h hk hd ha
    obtain ⟨cur1, tail, _, hrec, rfl⟩ := calcGo_cons_inv i cur q rest timed h
    cases k with
    | zero =>
      simp only [List.getElem?_cons_zero, Option.some_inj] at hk ha
      rw [← ha]
      show seconds_to_time (cur1 + q.duration.getD 0) = seconds_to_time cur1
      rw [hk, hd]
      simp
    | succ k =>
      simp only [List.getElem?_cons_succ] at hk ha
      exact ih (i + 1) (cur1 + q.duration.getD 0) tail k p a hrec hk hd ha

/-! ### Lemmas about the day map -/

theorem getDay_setDay_self (days : Days) (n : Nat) (ps : List Prog) :
    getDay (setDay days n ps) n = some ps := by
  induction days with
  | nil => simp [setDay, getDay]
  | cons kv rest ih =>
    obtain ⟨k, v⟩ := kv
    by_cases hk : k = n
    · simp [setDay, hk, getDay]
    · simp [setDay, hk, getDay, ih]

theorem getDay_setDay_other (days : Days) (n m : Nat) (ps : List Prog) (h : n ≠ m) :
    getDay (setDay days n ps) m = getDay days m := by
  induction days with
  | nil => simp [setDay, getDay, h]
  | cons kv rest ih =>
    obtain ⟨k, v⟩ := kv
    by_cases hk : k = n
    · subst hk
      simp [setDay, getDay, h]
    · simp [setDay, hk, getDay, ih]

theorem getDay_modifyDay_other (days : Days) (n m : Nat) (g : List Prog → List Prog)
    (h : n ≠ m) : getDay (modifyDay days n g) m = getDay days m := by
  unfold modifyDay
  cases hg : getDay days n with
  | none => rfl
  | some ps => exact getDay_setDay_other days n m (g ps) h

/-! ### Lemmas about day numbers -/

theorem mem_insertSorted (a n : Nat) (l : List Nat) :
    a ∈ insertSorted n l ↔ a = n ∨ a ∈ l := by
  induction l with
  | nil => simp [insertSorted]
  | cons m rest ih =>
    rw [insertSorted]
    by_cases h : n ≤ m
    · simp [h]
    · simp only [h, if_false, List.mem_cons, ih]
      tauto

theorem mem_sortNats (a : Nat) (l : List Nat) : a ∈ sortNats l ↔ a ∈ l := by
  induction l with
  | nil => simp [sortNats]
  | cons n rest ih =>
    rw [sortNats, mem_insertSorted]
    simp [ih]

theorem le_foldl_max (l : List Nat) : ∀ (a : Nat), a ≤ l.foldl Nat.max a := by
  induction l with
  | nil => intro a; simp
  | cons x rest ih =>
    intro a
    rw [List.foldl_cons]
    calc a ≤ Nat.max a x := Nat.le_max_left a x
      _ ≤ rest.foldl Nat.max (Nat.max a x) := ih _

theorem mem_le_foldl_max (l : List Nat) : ∀ (a m : Nat), m ∈ l → m ≤ l.foldl Nat.max a := by
  induction l with
  | nil => intro a m h; simp at h
  | cons x rest ih =>
    intro a m h
    rw [List.foldl_cons]
    rcases List.mem_cons.mp h with rfl | h2
    · calc m ≤ Nat.max a m := Nat.le_max_right a m
        _ ≤ rest.foldl Nat.max (Nat.max a m) := le_foldl_max rest _
    · exact ih _ m h2

theorem new_day_number_of_mem (days : Days) (x : Nat) (hx : x ∈ get_day_numbers days) :
    new_day_number days = (get_day_numbers days).foldl Nat.max 0 + 1 := by
  unfold new_day_number
  cases h : get_day_numbers days with
  | nil => rw [h] at hx; simp at hx
  | cons y ys => rfl

theorem overrun_flag_some (progs : List Prog) (timed : List (String × String × Prog))
    (first last : String × String × Prog) (lastEnd fs0 : Int)
    (hc : calc_program_times progs = some timed)
    (hh : timed.head? = some first) (hl : timed.getLast? = some last)
    (he : time_to_seconds last.2.1 = some lastEnd)
    (hf : time_to_seconds first.1 = some fs0) :
    overrun_flag progs = some (decide ((DEFAULT_END_HOUR + 24) * 3600 <
      if lastEnd < (if fs0 < DEFAULT_START_HOUR * 3600 then fs0 + 24 * 3600 else fs0)
      then lastEnd + 24 * 3600 else lastEnd)) := by
  rw [overrun_flag.eq_def, hc]
  dsimp only
  rw [hh, hl]
  dsimp only
  rw [he, hf]

/-! ### The claims -/

/-- C5: for every valid HH:MM string (decimal digits, hour at most 23,
minute at most 59), converting to seconds since midnight and back yields
the same string. -/
theorem C5_roundtrip (t : String) (hv : specValidHHMM t = true) :
    (time_to_seconds t).map seconds_to_time = some t := by
  obtain ⟨hh, mm, _, _, hparse, hrender⟩ := specValid_roundtrip t hv
  rw [hparse]
  exact congrArg some hrender

/-- C3: a valid pinned start is authoritative: the resolved start of a
pinned entry is exactly its pin, wherever the previous entry ended; and
the documented three-entry scenario resolves to 07:00-08:00,
10:00-11:30, 11:30-12:00. -/
theorem C3_pin_authoritative (progs : List Prog) (timed : List (String × String × Prog))
    (k : Nat) (p : Prog) (T : String) (hk : progs[k]? = some p) (hs : p.start = some T)
    (hv : specValidHHMM T = true) (hcalc : calc_program_times progs = some timed) :
    timed[k]?.map (fun x => x.1) = some T
    ∧ calc_program_times
        [⟨"f1", none, some 3600⟩, ⟨"f2", some "10:00", some 5400⟩, ⟨"f3", none, some 1800⟩]
      = some [("07:00", "08:00", ⟨"f1", none, some 3600⟩),
              ("10:00", "11:30", ⟨"f2", some "10:00", some 5400⟩),
              ("11:30", "12:00", ⟨"f3", none, some 1800⟩)] := by
  refine ⟨calcGo_pin_start progs 0 _ timed k p T hcalc hk hs hv, ?_⟩
  decide

/-- C4: a day with no pinned entry resolves strictly back to back: the
first entry starts at 07:00 and each entry ends exactly where the next
one starts. -/
theorem C4_back_to_back (progs : List Prog) (timed : List (String × String × Prog))
    (hnp : ∀ p ∈ progs, progHasPin p = false)
    (hcalc : calc_program_times progs = some timed) :
    (progs ≠ [] → timed.head?.map (fun x => x.1) = some "07:00")
    ∧ ∀ (k : Nat) (a b : String × String × Prog),
        timed[k]? = some a → timed[k+1]? = some b → a.2.1 = b.1 := by
  have hchain : timed = chain (DEFAULT_START_HOUR * 3600) progs := by
    have h2 := calc_no_pins progs hnp
    rw [hcalc] at h2
    exact Option.some.inj h2
  constructor
  · intro hne
    cases progs with
    | nil => exact absurd rfl hne
    | cons p rest =>
      rw [hchain, chain_head]
      decide
  · intro k a b ha hb
    rw [hchain] at ha hb
    exact chain_adjacent progs _ k a b ha hb

/-- C8: an entry whose start field is present but empty is treated as
unpinned: it chains from the previous end, or starts the day at 07:00
when it is the first entry. -/
theorem C8_empty_pin_unpinned (progs : List Prog) (timed : List (String × String × Prog))
    (k : Nat) (p : Prog) (hk : progs[k]? = some p) (hs : p.start = some "")
    (hcalc : calc_program_times progs = some timed) :
    (k = 0 → timed[0]?.map (fun x => x.1) = some "07:00")
    ∧ ∀ (j : Nat), k = j + 1 → ∀ (a b : String × String × Prog),
        timed[j]? = some a → timed[j+1]? = some b → b.1 = a.2.1 := by
  constructor
  · intro hk0
    subst hk0
    cases progs with
    | nil => simp at hk
    | cons q rest =>
      simp only [List.getElem?_cons_zero, Option.some_inj] at hk
      apply calc_first_start_unpinned q rest timed _ hcalc
      rw [hk, progHasPin, hs]
      simp
  · intro j hkj a b ha hb
    subst hkj
    refine calcGo_adjacent_unpinned progs 0 (DEFAULT_START_HOUR * 3600) timed j a b p
      hcalc ha hb hk ?_
    rw [progHasPin, hs]
    simp

/-- C2 counterexample: the string "+1:23" is accepted by validate_time
although it is not of the decimal-digit shape HH:MM, because Python
int() accepts a leading sign; so acceptance is not equivalent to the
digit shape. -/
theorem C2_counterexample :
    validate_time "+1:23" = true ∧ specValidHHMM "+1:23" = false := by
  decide

/-- C2 (amended): validate_time accepts exactly the five-character
strings with a colon at index 2 whose two-character fields parse as
Python integer literals (optional sign and surrounding whitespace
allowed) with hour in 0..23 and minute in 0..59; every digit-shaped
in-range HH:MM is accepted; and set_pin with a rejected string leaves
the day unchanged. -/
theorem C2_validation (t : String) (progs : List Prog) (pos : Nat) :
    (validate_time t = true ↔
      (t.length = 5 ∧ t.data[2]? = some ':' ∧
        ∃ h m : Int, pyIntChars (t.data.take 2) = some h ∧ pyIntChars (t.data.drop 3) = some m ∧
          0 ≤ h ∧ h ≤ 23 ∧ 0 ≤ m ∧ m ≤ 59))
    ∧ (specValidHHMM t = true → validate_time t = true)
    ∧ (validate_time t = false → set_pin progs pos t = progs) := by
  refine ⟨validate_time_iff t, validate_time_of_specValid t, ?_⟩
  intro hv
  rw [set_pin.eq_def]
  cases hp : progs[pos]? with
  | none => rfl
  | some p =>
    dsimp only
    rw [hv]
    rfl

/-- C6: copying a day refuses a missing source with UnknownDay, installs
a value copy of the source entries at the destination, and any later
rewrite of the destination day leaves the source day entries intact. -/
theorem C6_copy_day_deep (days : Days) (fromN toN : Nat) :
    (∀ ps, getDay days fromN = some ps →
      copy_day days fromN toN = .ok (setDay days toN ps)
      ∧ getDay (setDay days toN ps) toN = some ps
      ∧ (fromN ≠ toN → ∀ g : List Prog → List Prog,
          getDay (modifyDay (setDay days toN ps) toN g) fromN = some ps))
    ∧ (getDay days fromN = none → copy_day days fromN toN = .error .UnknownDay) := by
  constructor
  · intro ps hf
    refine ⟨?_, getDay_setDay_self days toN ps, ?_⟩
    · rw [copy_day.eq_def, hf]
    · intro hft g
      rw [getDay_modifyDay_other _ toN fromN g (fun he => hft he.symm)]
      rw [getDay_setDay_other days toN fromN ps (fun he => hft he.symm)]
      exact hf
  · intro hf
    rw [copy_day.eq_def, hf]

/-- C7: an add command that selects no schedulable asset, because the
index names no catalog entry or the entry is errored or has
non-positive duration, reports unknownAsset and leaves the day exactly
as it was. -/
theorem C7_unknown_asset (movies : List Movie) (progs : List Prog) (idx : Nat)
    (ts : Option String)
    (h : ∀ m, movies[idx]? = some m → movieErrTruthy m = true ∨ m.duration ≤ 0) :
    (add_program movies progs idx ts).1 = .unknownAsset
    ∧ (add_program movies progs idx ts).2 = progs := by
  rw [add_program.eq_def]
  cases hm : movies[idx]? with
  | none => exact ⟨rfl, rfl⟩
  | some m =>
    dsimp only
    have hcond : (movieErrTruthy m || decide (m.duration ≤ 0)) = true := by
      rcases h m hm with h1 | h2
      · simp [h1]
      · simp [h2]
    rw [hcond]
    exact ⟨rfl, rfl⟩

/-- C9: a new day always gets number max(existing) + 1, or 1 when no
day exists, so a gap below the current maximum is never reused. -/
theorem C9_new_day_number (days : Days) :
    (get_day_numbers days = [] → new_day_number days = 1)
    ∧ (∀ m ∈ get_day_numbers days,
        new_day_number days = (get_day_numbers days).foldl Nat.max 0 + 1
        ∧ m < new_day_number days)
    ∧ (∀ g m, m ∈ get_day_numbers days → g < m → new_day_number days ≠ g) := by
  refine ⟨?_, ?_, ?_⟩
  · intro h
    unfold new_day_number
    rw [h]
  · intro m hm
    have hmax := new_day_number_of_mem days m hm
    refine ⟨hmax, ?_⟩
    rw [hmax]
    have := mem_le_foldl_max (get_day_numbers days) 0 m hm
    omega
  · intro g m hm hg
    have hmax := new_day_number_of_mem days m hm
    have := mem_le_foldl_max (get_day_numbers days) 0 m hm
    omega

/-- C10 counterexample: a day consisting of one entry with no duration
but an unparseable pinned start does not resolve (Python raises
ValueError), so resolution of a day containing a duration-less entry
can fail. -/
theorem C10_counterexample :
    (⟨"a", some "zz:zz", none⟩ : Prog).duration = none
    ∧ calc_program_times [⟨"a", some "zz:zz", none⟩] = none := by
  decide

/-- C10 (amended): when every non-empty pinned start in the day parses
as a time (as every pin written through the editor does), the resolver
completes on the whole day, an entry lacking a duration contributes 0,
and its resolved end equals its resolved start. -/
theorem C10_missing_duration (progs : List Prog)
    (hpins : ∀ p ∈ progs, ∀ s, p.start = some s → s ≠ "" →
      (time_to_seconds s).isSome = true) :
    ∃ timed, calc_program_times progs = some timed ∧ timed.length = progs.length ∧
      ∀ (k : Nat) (p : Prog) (a : String × String × Prog),
        progs[k]? = some p → p.duration = none → timed[k]? = some a → a.2.1 = a.1 := by
  obtain ⟨timed, h⟩ := calcGo_total progs 0 (DEFAULT_START_HOUR * 3600) hpins
  exact ⟨timed, h, calcGo_length progs _ _ _ h,
    fun k p a hk hd ha => calcGo_nodur progs _ _ timed k p a h hk hd ha⟩

/-- C1 counterexample: the single-entry day of duration 86400 starts at
07:00 and sums to more than 20 hours, yet is not flagged: its displayed
end wraps around to 07:00 again, so the warning logic sees no overrun. -/
theorem C1_counterexample :
    calc_program_times [⟨"a", none, some 86400⟩]
      = some [("07:00", "07:00", ⟨"a", none, some 86400⟩)]
    ∧ (20 * 3600 : Int) < sum_durations [⟨"a", none, some 86400⟩]
    ∧ overrun_flag [⟨"a", none, some 86400⟩] = some false := by
  decide

/-- C1 (amended): for a day whose first resolved entry starts at 07:00
the overrun flag is raised exactly when the last resolved end, bumped by
86400 when it is numerically below 25200, exceeds 97200; in particular a
day with no pinned entries summing to at least 20 hours 1 minute and
less than 24 hours is flagged, and one summing to exactly 19 hours is
not. -/
theorem C1_overrun_characterization (progs : List Prog)
    (timed : List (String × String × Prog))
    (hcalc : calc_program_times progs = some timed)
    (hfirst : timed.head?.map (fun x => x.1) = some "07:00") :
    (∀ (l : String × String × Prog) (e : Int),
      timed.getLast? = some l → time_to_seconds l.2.1 = some e →
      overrun_flag progs = some (decide ((97200 : Int) <
        if e < 25200 then e + 86400 else e)))
    ∧ ((∀ p ∈ progs, progHasPin p = false) →
        (72060 ≤ sum_durations progs → sum_durations progs < 86400 →
          overrun_flag progs = some true)
        ∧ (sum_durations progs = 68400 → overrun_flag progs = some false)) := by
  constructor
  · intro l e hl he
    cases timed with
    | nil => simp at hfirst
    | cons f rest2 =>
      have hf1 : f.1 = "07:00" := by simpa using hfirst
      have hfp : time_to_seconds f.1 = some 25200 := by rw [hf1]; decide
      rw [overrun_flag_some progs (f :: rest2) f l e 25200 hcalc rfl hl he hfp]
      norm_num [DEFAULT_END_HOUR, DEFAULT_START_HOUR]
  · intro hnp
    cases progs with
    | nil =>
      constructor
      · intro h1 _
        rw [show sum_durations [] = 0 from rfl] at h1
        omega
      · intro h3
        rw [show sum_durations [] = 0 from rfl] at h3
        omega
    | cons p rest =>
      have hchain : timed = chain (DEFAULT_START_HOUR * 3600) (p :: rest) := by
        have h2 := calc_no_pins _ hnp
        rw [hcalc] at h2
        exact Option.some.inj h2
      have hh : timed.head? = some (seconds_to_time (DEFAULT_START_HOUR * 3600),
          seconds_to_time (DEFAULT_START_HOUR * 3600 + p.duration.getD 0), p) := by
        rw [hchain]
        rfl
      obtain ⟨l0, hl0, hl0e⟩ := Option.map_eq_some'.mp
        (chain_last_end (p :: rest) (DEFAULT_START_HOUR * 3600) (by simp))
      have hl : timed.getLast? = some l0 := by rw [hchain]; exact hl0
      have hfp : time_to_seconds (seconds_to_time (DEFAULT_START_HOUR * 3600))
          = some 25200 := by decide
      have hlp := seconds_to_time_parse
        (DEFAULT_START_HOUR * 3600 + sum_durations (p :: rest))
      have hflag := overrun_flag_some (p :: rest) timed _ l0 _ 25200 hcalc hh hl
        (by rw [hl0e]; exact hlp) hfp
      constructor
      · intro h1 h2
        rw [hflag]
        simp only [Option.some_inj, decide_eq_true_eq, DEFAULT_END_HOUR, DEFAULT_START_HOUR]
        split_ifs <;> omega
      · intro h3
        rw [hflag]
        simp only [Option.some_inj, DEFAULT_END_HOUR, DEFAULT_START_HOUR]
        rw [decide_eq_false_iff_not]
        split_ifs <;> omega

/-! ### Concrete witnesses -/

/-- Witness for C1: a pin-free day of 20 hours and one minute starting
at 07:00 is flagged overrun. -/
theorem C1_witness :
    overrun_flag [⟨"a", none, some 72060⟩] = some true :=
  ((C1_overrun_characterization [⟨"a", none, some 72060⟩]
      [("07:00", "03:01", ⟨"a", none, some 72060⟩)] (by decide) (by decide)).2
    (by decide)).1 (by decide) (by decide)

/-- Witness for C2: a digit-shaped time is accepted and a rejected
string leaves the day unchanged. -/
theorem C2_witness :
    validate_time "07:30" = true ∧ set_pin [] 0 "1:30" = [] :=
  ⟨(C2_validation "07:30" [] 0).2.1 (by decide),
   (C2_validation "1:30" [] 0).2.2 (by decide)⟩

/-- Witness for C3: in the documented scenario the pinned second entry
resolves to its pin 10:00. -/
theorem C3_witness :
    (([("07:00", "08:00", (⟨"f1", none, some 3600⟩ : Prog)),
       ("10:00", "11:30", ⟨"f2", some "10:00", some 5400⟩),
       ("11:30", "12:00", ⟨"f3", none, some 1800⟩)])[1]?).map (fun x => x.1)
      = some "10:00" :=
  (C3_pin_authoritative
    [⟨"f1", none, some 3600⟩, ⟨"f2", some "10:00", some 5400⟩, ⟨"f3", none, some 1800⟩]
    [("07:00", "08:00", ⟨"f1", none, some 3600⟩),
     ("10:00", "11:30", ⟨"f2", some "10:00", some 5400⟩),
     ("11:30", "12:00", ⟨"f3", none, some 1800⟩)]
    1 ⟨"f2", some "10:00", some 5400⟩ "10:00" (by decide) rfl (by decide) (by decide)).1

/-- Witness for C4: a two-entry pin-free day starts at 07:00. -/
theorem C4_witness :
    (([("07:00", "07:01", (⟨"a", none, some 60⟩ : Prog)),
       ("07:01", "07:02", ⟨"b", none, some 60⟩)]).head?).map (fun x => x.1)
      = some "07:00" :=
  (C4_back_to_back [⟨"a", none, some 60⟩, ⟨"b", none, some 60⟩]
    [("07:00", "07:01", ⟨"a", none, some 60⟩), ("07:01", "07:02", ⟨"b", none, some 60⟩)]
    (by decide) (by decide)).1 (by decide)

/-- Witness for C5: the round trip at 23:59. -/
theorem C5_witness : (time_to_seconds "23:59").map seconds_to_time = some "23:59" :=
  C5_roundtrip "23:59" (by decide)

/-- Witness for C6: copy day 3 to day 7 and then drop the last entry of
day 7; day 3 still holds its two original entries, pin included. -/
theorem C6_witness :
    getDay (modifyDay (setDay [(3, [⟨"x", some "10:00", some 60⟩, ⟨"y", none, some 120⟩])]
        7 [⟨"x", some "10:00", some 60⟩, ⟨"y", none, some 120⟩]) 7 List.dropLast) 3
      = some [⟨"x", some "10:00", some 60⟩, ⟨"y", none, some 120⟩] :=
  ((C6_copy_day_deep [(3, [⟨"x", some "10:00", some 60⟩, ⟨"y", none, some 120⟩])] 3 7).1
    [⟨"x", some "10:00", some 60⟩, ⟨"y", none, some 120⟩] (by decide)).2.2
    (by decide) List.dropLast

/-- Witness for C7: adding the zero-duration catalog entry is rejected
and the one-entry day is untouched. -/
theorem C7_witness :
    (add_program [⟨"m", 0, none⟩] [⟨"a", none, some 5⟩] 0 none).2
      = [⟨"a", none, some 5⟩] :=
  (C7_unknown_asset [⟨"m", 0, none⟩] [⟨"a", none, some 5⟩] 0 none
    (by
      intro m hm
      simp only [List.getElem?_cons_zero, Option.some_inj] at hm
      subst hm
      exact Or.inr (by decide))).2

/-- Witness for C8: the empty-string pin of the second entry chains it
from the end of the first. -/
theorem C8_witness :
    (("08:00", "08:10", (⟨"b", some "", some 600⟩ : Prog)) : String × String × Prog).1
      = (("07:00", "08:00", (⟨"a", none, some 3600⟩ : Prog)) : String × String × Prog).2.1 :=
  (C8_empty_pin_unpinned [⟨"a", none, some 3600⟩, ⟨"b", some "", some 600⟩]
    [("07:00", "08:00", ⟨"a", none, some 3600⟩), ("08:00", "08:10", ⟨"b", some "", some 600⟩)]
    1 ⟨"b", some "", some 600⟩ (by decide) rfl (by decide)).2
    0 rfl _ _ (by decide) (by decide)

/-- Witness for C9: with days 1 and 5 present, the next day number is
not the gap 3. -/
theorem C9_witness : new_day_number [(1, []), (5, [])] ≠ 3 :=
  (C9_new_day_number [(1, []), (5, [])]).2.2 3 5 (by decide) (by decide)

/-- Witness for C10: a one-entry day whose entry has no duration
resolves completely. -/
theorem C10_witness :
    ∃ timed, calc_program_times [(⟨"a", none, none⟩ : Prog)] = some timed
      ∧ timed.length = 1 :=
  match C10_missing_duration [⟨"a", none, none⟩]
    (by
      intro p hp s hs hne
      simp only [List.mem_singleton] at hp
      subst hp
      simp at hs) with
  | ⟨timed, h1, h2, _⟩ => ⟨timed, h1, by simpa using h2⟩

end VTV
